import Mathlib

/-!
Verification of the `box` string-interning library (src/lib.rs) via a
shallow embedding.

The Rust code keeps a process-wide `State { mapping: HashMap<&'static str, usize>,
values: Vec<String> }` behind a lock.  Concurrency aside, every public
operation is a pure function of that state, so we embed the state as a
structure with an association list for the `HashMap` (lookup-by-content,
first match) and a `List String` for the `Vec`.  `Symbol` wraps the `usize`
index as a `Nat`.

`Symbol::new` takes any `T: AsRef<str> + Into<String>`; the lookup uses
`value.as_ref()` and the store uses `value.into()`, both the same text, so
the embedding takes that text as a `String` — owned and borrowed inputs of
equal content are the same input here.

Rust indexing `state.values[self.0]` panics out of bounds; the embedding
returns `Option String`, with `none` as the panic branch.
-/

namespace Box

/-- A symbol: wraps a `usize` index into the table (`pub struct Symbol(usize)`). -/
structure Symbol where
  index : Nat
deriving DecidableEq

/-- The interning table: `mapping` from content to index, plus the `values`
sequence of stored strings. -/
structure State where
  mapping : List (String × Nat)
  values : List String
deriving DecidableEq

/-- `HashMap::get` on the association list: first entry with the given key. -/
def mapGet (m : List (String × Nat)) (k : String) : Option Nat :=
  match m with
  | [] => none
  | (k₁, i) :: rest => if k₁ = k then some i else mapGet rest k

/-- `State::default()`: empty map, empty vector. -/
def State.initial : State :=
  { mapping := [], values := [] }

/-- `Symbol::new`: look the content up in `mapping`; on a hit return the stored
index and leave the state unchanged; on a miss push the content onto `values`
and record `content ↦ new index` in `mapping`. -/
def Symbol.new (value : String) (s : State) : Symbol × State :=
  match mapGet s.mapping value with
  | some index => (⟨index⟩, s)
  | none =>
    let index := s.values.length
    (⟨index⟩, { mapping := (value, index) :: s.mapping,
                values := s.values ++ [value] })

/-- `AsRef<str> for Symbol`: `state.values[self.0]`, with `none` for the
out-of-bounds panic branch. -/
def Symbol.asRef (sym : Symbol) (s : State) : Option String :=
  s.values[sym.index]?

/-- `Deref for Symbol`: delegates to `as_ref`. -/
def Symbol.deref (sym : Symbol) (s : State) : Option String :=
  sym.asRef s

/-- `Default for Symbol`: `Self::new::<&str>(Default::default())`, and the
default `&str` is the empty string. -/
def Symbol.defaultSym (s : State) : Symbol × State :=
  Symbol.new "" s

/-- `From<T> for Symbol`: delegates to `Symbol::new`. -/
def Symbol.ofValue (value : String) (s : State) : Symbol × State :=
  Symbol.new value s

/-- `Serialize for Symbol`: `serializer.serialize_str(self.as_ref())` — the
encoded form is exactly the referenced text. -/
def Symbol.serialize (sym : Symbol) (s : State) : Option String :=
  sym.asRef s

/-- `Deserialize for Symbol`: the visitor interns the decoded string via
`Symbol::new` (both `visit_str` and `visit_string`). -/
def Symbol.deserialize (value : String) (s : State) : Symbol × State :=
  Symbol.new value s

/-- Run a sequence of interning calls, keeping only the final state. -/
def internAll (vs : List String) (s : State) : State :=
  vs.foldl (fun state v => (Symbol.new v state).2) s

/-- The table invariant: `mapping` sends content `k` to index `i` exactly when
`values[i]` is `k`; the map keys are pairwise distinct; the stored values are
pairwise distinct. -/
def Inv (s : State) : Prop :=
  (∀ k i, mapGet s.mapping k = some i ↔ s.values[i]? = some k) ∧
  (s.mapping.map Prod.fst).Nodup ∧
  s.values.Nodup

/-- States reachable from the initial table by interning calls (`Symbol::new`;
`default`, `From`, and deserialization all route through it). -/
inductive Reachable : State → Prop
  | init : Reachable State.initial
  | step (v : String) {s : State} : Reachable s → Reachable (Symbol.new v s).2

/-! ### Basic lemmas about the table operations -/

theorem mapGet_eq_none_iff {m : List (String × Nat)} {k : String} :
    mapGet m k = none ↔ k ∉ m.map Prod.fst := by
  induction m with
  | nil => simp [mapGet]
  | cons p rest ih =>
    obtain ⟨k₁, i₁⟩ := p
    by_cases h : k₁ = k
    · subst h
      simp [mapGet]
    · simp [mapGet, h, ih, Ne.symm h]

theorem new_found {s : State} {v : String} {i : Nat}
    (h : mapGet s.mapping v = some i) :
    Symbol.new v s = (⟨i⟩, s) := by
  unfold Symbol.new
  rw [h]

theorem new_missing {s : State} {v : String}
    (h : mapGet s.mapping v = none) :
    Symbol.new v s =
      (⟨s.values.length⟩,
        { mapping := (v, s.values.length) :: s.mapping,
          values := s.values ++ [v] }) := by
  unfold Symbol.new
  rw [h]

theorem lt_length_of_getElem?_eq_some {l : List String} {i : Nat} {a : String}
    (h : l[i]? = some a) : i < l.length := by
  rcases List.getElem?_eq_some_iff.mp h with ⟨hi, _⟩
  exact hi

theorem inv_initial : Inv State.initial := by
  refine ⟨?_, ?_, ?_⟩
  · intro k i
    simp [State.initial, mapGet]
  · simp [State.initial]
  · simp [State.initial]

theorem not_mem_values_of_mapGet_eq_none {s : State} {v : String} (hI : Inv s)
    (h : mapGet s.mapping v = none) : v ∉ s.values := by
  intro hmem
  rcases List.mem_iff_getElem?.mp hmem with ⟨i, hi⟩
  have : mapGet s.mapping v = some i := (hI.1 v i).mpr hi
  rw [h] at this
  exact Option.noConfusion this

/-- The invariant is preserved by `Symbol::new`. -/
theorem inv_step {s : State} (v : String) (hI : Inv s) :
    Inv (Symbol.new v s).2 := by
  obtain ⟨hiff, hkeys, hvals⟩ := hI
  cases hm : mapGet s.mapping v with
  | some i =>
    rw [new_found hm]
    exact ⟨hiff, hkeys, hvals⟩
  | none =>
    rw [new_missing hm]
    have hnotmem : v ∉ s.values := not_mem_values_of_mapGet_eq_none ⟨hiff, hkeys, hvals⟩ hm
    refine ⟨?_, ?_, ?_⟩
    · intro k i
      show (if v = k then some s.values.length else mapGet s.mapping k) = some i ↔
        (s.values ++ [v])[i]? = some k
      by_cases hk : v = k
      · subst hk
        rw [if_pos rfl]
        constructor
        · intro h1
          have h2 : i = s.values.length := (Option.some.injEq _ _).mp h1.symm
          subst h2
          exact List.getElem?_concat_length s.values v
        · intro h2
          rcases Nat.lt_trichotomy i s.values.length with hlt | heq | hgt
          · rw [List.getElem?_append_left hlt] at h2
            exact absurd ((hiff v i).mpr h2) (by rw [hm]; exact Option.noConfusion)
          · rw [heq]
          · have : (s.values ++ [v])[i]? = none := by
              apply List.getElem?_eq_none
              simp only [List.length_append, List.length_cons, List.length_nil]
              omega
            rw [this] at h2
            exact Option.noConfusion h2
      · rw [if_neg hk]
        constructor
        · intro h1
          have hi : s.values[i]? = some k := (hiff k i).mp h1
          have hlt : i < s.values.length := lt_length_of_getElem?_eq_some hi
          rw [List.getElem?_append_left hlt]
          exact hi
        · intro h2
          rcases Nat.lt_trichotomy i s.values.length with hlt | heq | hgt
          · rw [List.getElem?_append_left hlt] at h2
            exact (hiff k i).mpr h2
          · subst heq
            rw [List.getElem?_concat_length s.values v] at h2
            exact absurd ((Option.some.injEq _ _).mp h2) hk
          · have : (s.values ++ [v])[i]? = none := by
              apply List.getElem?_eq_none
              simp only [List.length_append, List.length_cons, List.length_nil]
              omega
            rw [this] at h2
            exact Option.noConfusion h2
    · show (((v, s.values.length) :: s.mapping).map Prod.fst).Nodup
      rw [List.map_cons, List.nodup_cons]
      exact ⟨mapGet_eq_none_iff.mp hm, hkeys⟩
    · show (s.values ++ [v]).Nodup
      rw [List.nodup_append]
      refine ⟨hvals, List.nodup_singleton v, ?_⟩
      intro a ha hav
      rw [List.mem_singleton.mp hav] at ha
      exact hnotmem ha

theorem internAll_inv {s : State} (vs : List String) (hI : Inv s) :
    Inv (internAll vs s) := by
  induction vs generalizing s with
  | nil => exact hI
  | cons v rest ih => exact ih (inv_step v hI)

theorem reachable_inv {s : State} (h : Reachable s) : Inv s := by
  induction h with
  | init => exact inv_initial
  | step v _ ih => exact inv_step v ih

/-! ### Growth: `values` is append-only -/

theorem new_values_append (v : String) (s : State) :
    ∃ r, (Symbol.new v s).2.values = s.values ++ r := by
  cases hm : mapGet s.mapping v with
  | some i => exact ⟨[], by rw [new_found hm, List.append_nil]⟩
  | none => exact ⟨[v], by rw [new_missing hm]⟩

theorem internAll_values_append (vs : List String) (s : State) :
    ∃ r, (internAll vs s).values = s.values ++ r := by
  induction vs generalizing s with
  | nil => exact ⟨[], (List.append_nil _).symm⟩
  | cons v rest ih =>
    rcases ih (Symbol.new v s).2 with ⟨r₂, h₂⟩
    rcases new_values_append v s with ⟨r₁, h₁⟩
    exact ⟨r₁ ++ r₂, by
      show (internAll rest (Symbol.new v s).2).values = _
      rw [h₂, h₁, List.append_assoc]⟩

theorem getElem?_of_append {l r : List String} {i : Nat} {a : String}
    (h : l[i]? = some a) : (l ++ r)[i]? = some a := by
  rw [List.getElem?_append_left (lt_length_of_getElem?_eq_some h)]
  exact h

theorem new_getElem? {s : State} {i : Nat} {a : String} (v : String)
    (h : s.values[i]? = some a) : (Symbol.new v s).2.values[i]? = some a := by
  rcases new_values_append v s with ⟨r, hr⟩
  rw [hr]
  exact getElem?_of_append h

theorem internAll_getElem? {s : State} {i : Nat} {a : String} (vs : List String)
    (h : s.values[i]? = some a) : (internAll vs s).values[i]? = some a := by
  rcases internAll_values_append vs s with ⟨r, hr⟩
  rw [hr]
  exact getElem?_of_append h

/-- The entry referenced by the symbol `Symbol::new v` returns holds exactly
the text `v`, in the state `Symbol::new` leaves behind. -/
theorem new_self {s : State} {v : String} (hI : Inv s) :
    (Symbol.new v s).2.values[(Symbol.new v s).1.index]? = some v := by
  cases hm : mapGet s.mapping v with
  | some i =>
    rw [new_found hm]
    exact (hI.1 v i).mp hm
  | none =>
    rw [new_missing hm]
    exact List.getElem?_concat_length s.values v

theorem mem_of_mapGet {m : List (String × Nat)} {k : String} {i : Nat}
    (h : mapGet m k = some i) : (k, i) ∈ m := by
  induction m with
  | nil => exact Option.noConfusion h
  | cons p rest ih =>
    obtain ⟨k₁, i₁⟩ := p
    simp only [mapGet] at h
    by_cases hk : k₁ = k
    · rw [if_pos hk] at h
      have hi : i₁ = i := Option.some.inj h
      rw [List.mem_cons]
      exact Or.inl (by rw [hk, hi])
    · rw [if_neg hk] at h
      exact List.mem_cons.mpr (Or.inr (ih h))

theorem mapGet_of_mem {m : List (String × Nat)} {k : String} {i : Nat}
    (hnd : (m.map Prod.fst).Nodup) (h : (k, i) ∈ m) : mapGet m k = some i := by
  induction m with
  | nil => cases h
  | cons p rest ih =>
    obtain ⟨k₁, i₁⟩ := p
    rw [List.map_cons, List.nodup_cons] at hnd
    rcases List.mem_cons.mp h with heq | htail
    · injection heq with h1 h2
      subst h1
      subst h2
      simp [mapGet]
    · have hk : k₁ ≠ k := by
        intro e
        subst e
        exact hnd.1 (List.mem_map.mpr ⟨(k₁, i), htail, rfl⟩)
      simp only [mapGet]
      rw [if_neg hk]
      exact ih hnd.2 htail

/-! ### The claims -/

/-- Claim C1: interning the same content `S` twice, with arbitrary other
interning calls in between, yields the same symbol (same index), leaves the
table unchanged on the second call, the symbol references the stored text `S`,
and `S` is stored exactly once. -/
theorem C1_dedup (S : String) (s : State) (hI : Inv s) (others : List String) :
    (Symbol.new S (internAll others (Symbol.new S s).2)).1 = (Symbol.new S s).1 ∧
    (Symbol.new S (internAll others (Symbol.new S s).2)).2 =
      internAll others (Symbol.new S s).2 ∧
    Symbol.asRef (Symbol.new S s).1 (internAll others (Symbol.new S s).2) = some S ∧
    (internAll others (Symbol.new S s).2).values.count S = 1 := by
  have h1 : Inv (Symbol.new S s).2 := inv_step S hI
  have hidx : (Symbol.new S s).2.values[(Symbol.new S s).1.index]? = some S :=
    new_self hI
  have h2 : Inv (internAll others (Symbol.new S s).2) := internAll_inv others h1
  have hidx2 : (internAll others (Symbol.new S s).2).values[(Symbol.new S s).1.index]? =
      some S := internAll_getElem? others hidx
  have hfound : mapGet (internAll others (Symbol.new S s).2).mapping S =
      some (Symbol.new S s).1.index := (h2.1 S (Symbol.new S s).1.index).mpr hidx2
  have hnew := new_found hfound
  refine ⟨?_, ?_, hidx2, ?_⟩
  · rw [hnew]
  · rw [hnew]
  · exact List.count_eq_one_of_mem h2.2.2 (List.mem_iff_getElem?.mpr ⟨_, hidx2⟩)

theorem C1_dedup_witness :
    Inv State.initial ∧
    ((Symbol.new "a" (internAll ["b", "c"] (Symbol.new "a" State.initial).2)).1 =
        (Symbol.new "a" State.initial).1 ∧
      (Symbol.new "a" (internAll ["b", "c"] (Symbol.new "a" State.initial).2)).2 =
        internAll ["b", "c"] (Symbol.new "a" State.initial).2 ∧
      Symbol.asRef (Symbol.new "a" State.initial).1
        (internAll ["b", "c"] (Symbol.new "a" State.initial).2) = some "a" ∧
      (internAll ["b", "c"] (Symbol.new "a" State.initial).2).values.count "a" = 1) :=
  ⟨inv_initial, C1_dedup "a" State.initial inv_initial ["b", "c"]⟩

/-- Claim C2: the text view (`as_ref`) of the symbol returned by
`Symbol::new S` is exactly `S`. -/
theorem C2_fidelity (S : String) (s : State) (hI : Inv s) :
    Symbol.asRef (Symbol.new S s).1 (Symbol.new S s).2 = some S :=
  new_self hI

theorem C2_fidelity_witness :
    Inv State.initial ∧
    Symbol.asRef (Symbol.new "foo" State.initial).1 (Symbol.new "foo" State.initial).2 =
      some "foo" :=
  ⟨inv_initial, C2_fidelity "foo" State.initial inv_initial⟩

/-- Claim C3 (semantics of the missing index equality): at the spec's example
scenario, interning "a" and "b" yields symbols with distinct indices, and
interning "a" again yields the index of the first "a" — so equality defined
over the wrapped index would distinguish and identify symbols exactly as the
claim requires.  The Rust `Symbol` itself derives only `Clone, Copy, Hash`
and provides no equality operation, so the claimed `==` does not exist in the
code (see the accompanying analysis). -/
theorem C3_index_scenario :
    (Symbol.new "a" State.initial).1.index ≠
      (Symbol.new "b" (Symbol.new "a" State.initial).2).1.index ∧
    (Symbol.new "a" (Symbol.new "b" (Symbol.new "a" State.initial).2).2).1.index =
      (Symbol.new "a" State.initial).1.index := by
  decide

/-- Claim C4: serializing a symbol writes exactly its referenced text, and
deserializing that text through the same table yields the same symbol (same
index) and leaves the table unchanged. -/
theorem C4_roundtrip (s : State) (sym : Symbol) (T : String) (hI : Inv s)
    (hT : Symbol.serialize sym s = some T) :
    (Symbol.deserialize T s).1 = sym ∧ (Symbol.deserialize T s).2 = s := by
  have hT' : s.values[sym.index]? = some T := hT
  have hm : mapGet s.mapping T = some sym.index := (hI.1 T sym.index).mpr hT'
  have hnew : Symbol.new T s = (⟨sym.index⟩, s) := new_found hm
  constructor
  · show (Symbol.new T s).1 = sym
    rw [hnew]
  · show (Symbol.new T s).2 = s
    rw [hnew]

theorem C4_roundtrip_witness :
    Inv (Symbol.new "foo" State.initial).2 ∧
    Symbol.serialize (Symbol.new "foo" State.initial).1
      (Symbol.new "foo" State.initial).2 = some "foo" ∧
    ((Symbol.deserialize "foo" (Symbol.new "foo" State.initial).2).1 =
        (Symbol.new "foo" State.initial).1 ∧
      (Symbol.deserialize "foo" (Symbol.new "foo" State.initial).2).2 =
        (Symbol.new "foo" State.initial).2) :=
  ⟨inv_step "foo" inv_initial, rfl,
    C4_roundtrip _ _ _ (inv_step "foo" inv_initial) rfl⟩

/-- Claim C5: in every reachable state the stored values are pairwise
distinct, and `Symbol::new` only appends: the old `values` is an initial
segment of the new one and every existing entry is unchanged (so no index is
ever reused for different content). -/
theorem C5_growth_only (s : State) (hR : Reachable s) (v : String) :
    s.values.Nodup ∧
    (Symbol.new v s).2.values.Nodup ∧
    (∃ r, (Symbol.new v s).2.values = s.values ++ r) ∧
    (∀ i, i < s.values.length → (Symbol.new v s).2.values[i]? = s.values[i]?) := by
  have hI := reachable_inv hR
  refine ⟨hI.2.2, (inv_step v hI).2.2, new_values_append v s, ?_⟩
  intro i hi
  rcases new_values_append v s with ⟨r, hr⟩
  rw [hr, List.getElem?_append_left hi]

theorem C5_growth_only_witness :
    Reachable (Symbol.new "a" State.initial).2 ∧
    ((Symbol.new "a" State.initial).2.values.Nodup ∧
      (Symbol.new "b" (Symbol.new "a" State.initial).2).2.values.Nodup ∧
      (∃ r, (Symbol.new "b" (Symbol.new "a" State.initial).2).2.values =
        (Symbol.new "a" State.initial).2.values ++ r) ∧
      (∀ i, i < (Symbol.new "a" State.initial).2.values.length →
        (Symbol.new "b" (Symbol.new "a" State.initial).2).2.values[i]? =
          (Symbol.new "a" State.initial).2.values[i]?)) :=
  ⟨Reachable.step "a" Reachable.init,
    C5_growth_only _ (Reachable.step "a" Reachable.init) "b"⟩

/-- Claim C6: a symbol whose text view is `T` keeps exactly the text view `T`
after any sequence of further interning calls. -/
theorem C6_stability (s : State) (sym : Symbol) (T : String)
    (h : Symbol.asRef sym s = some T) (others : List String) :
    Symbol.asRef sym (internAll others s) = some T :=
  internAll_getElem? others h

theorem C6_stability_witness :
    Symbol.asRef (Symbol.new "a" State.initial).1 (Symbol.new "a" State.initial).2 =
      some "a" ∧
    Symbol.asRef (Symbol.new "a" State.initial).1
      (internAll ["b", "c", "d"] (Symbol.new "a" State.initial).2) = some "a" :=
  ⟨rfl, C6_stability (Symbol.new "a" State.initial).2 (Symbol.new "a" State.initial).1
    "a" rfl ["b", "c", "d"]⟩

/-- Claim C7: `default()` is by definition `Symbol::new("")` (the same
interning path), a later `Symbol::new("")` returns the very same symbol
(deduplication applies to the empty string), and the default symbol
references the stored empty string. -/
theorem C7_default_empty (s : State) (hI : Inv s) :
    Symbol.defaultSym s = Symbol.new "" s ∧
    (Symbol.new "" (Symbol.defaultSym s).2).1 = (Symbol.defaultSym s).1 ∧
    Symbol.asRef (Symbol.defaultSym s).1 (Symbol.defaultSym s).2 = some "" := by
  refine ⟨rfl, ?_, new_self hI⟩
  have h1 : Inv (Symbol.defaultSym s).2 := inv_step "" hI
  have hidx : (Symbol.defaultSym s).2.values[(Symbol.defaultSym s).1.index]? =
      some "" := new_self hI
  have hm : mapGet (Symbol.defaultSym s).2.mapping "" =
      some (Symbol.defaultSym s).1.index := (h1.1 "" _).mpr hidx
  show (Symbol.new "" (Symbol.defaultSym s).2).1 = (Symbol.defaultSym s).1
  rw [new_found hm]

theorem C7_default_empty_witness :
    Inv State.initial ∧
    (Symbol.defaultSym State.initial = Symbol.new "" State.initial ∧
      (Symbol.new "" (Symbol.defaultSym State.initial).2).1 =
        (Symbol.defaultSym State.initial).1 ∧
      Symbol.asRef (Symbol.defaultSym State.initial).1
        (Symbol.defaultSym State.initial).2 = some "") :=
  ⟨inv_initial, C7_default_empty State.initial inv_initial⟩

/-- Claim C8: interning is total: for every input, including the empty
string, `Symbol::new` returns a symbol whose index is in bounds and whose
text view succeeds (there is no failure outcome). -/
theorem C8_total (s : State) (v : String) (hI : Inv s) :
    (Symbol.new v s).1.index < (Symbol.new v s).2.values.length ∧
    (Symbol.asRef (Symbol.new v s).1 (Symbol.new v s).2).isSome = true := by
  have h := new_self (v := v) hI
  constructor
  · exact lt_length_of_getElem?_eq_some h
  · show ((Symbol.new v s).2.values[(Symbol.new v s).1.index]?).isSome = true
    rw [h]
    rfl

theorem C8_total_witness :
    Inv State.initial ∧
    ((Symbol.new "" State.initial).1.index <
        (Symbol.new "" State.initial).2.values.length ∧
      (Symbol.asRef (Symbol.new "" State.initial).1
        (Symbol.new "" State.initial).2).isSome = true) :=
  ⟨inv_initial, C8_total State.initial "" inv_initial⟩

/-- Claim C9: the index wrapped by a symbol returned by `Symbol::new` stays
in bounds of `values` after any further interning calls, so `as_ref` and
`deref` never hit the out-of-bounds branch and return the referenced entry's
content. -/
theorem C9_safety (s : State) (v : String) (others : List String) (hI : Inv s) :
    (Symbol.new v s).1.index < (internAll others (Symbol.new v s).2).values.length ∧
    Symbol.asRef (Symbol.new v s).1 (internAll others (Symbol.new v s).2) = some v ∧
    Symbol.deref (Symbol.new v s).1 (internAll others (Symbol.new v s).2) = some v := by
  have h := internAll_getElem? others (new_self (v := v) hI)
  exact ⟨lt_length_of_getElem?_eq_some h, h, h⟩

theorem C9_safety_witness :
    Inv State.initial ∧
    ((Symbol.new "x" State.initial).1.index <
        (internAll ["y", "z"] (Symbol.new "x" State.initial).2).values.length ∧
      Symbol.asRef (Symbol.new "x" State.initial).1
        (internAll ["y", "z"] (Symbol.new "x" State.initial).2) = some "x" ∧
      Symbol.deref (Symbol.new "x" State.initial).1
        (internAll ["y", "z"] (Symbol.new "x" State.initial).2) = some "x") :=
  ⟨inv_initial, C9_safety State.initial "x" ["y", "z"] inv_initial⟩

/-- Claim C10: in every reachable state, `mapping` and `values` are mutually
consistent: `mapping` resolves `k` to `i` exactly when `values[i] = k`, every
entry of `mapping` points at the matching stored value, all stored indices are
in bounds, and the key set of `mapping` is exactly the set of stored values. -/
theorem C10_consistency (s : State) (hR : Reachable s) :
    (∀ k i, mapGet s.mapping k = some i ↔ s.values[i]? = some k) ∧
    (∀ k i, (k, i) ∈ s.mapping → s.values[i]? = some k) ∧
    (∀ k i, (k, i) ∈ s.mapping → i < s.values.length) ∧
    (∀ k, (∃ i, (k, i) ∈ s.mapping) ↔ k ∈ s.values) := by
  have hI := reachable_inv hR
  have hmem : ∀ k i, (k, i) ∈ s.mapping → mapGet s.mapping k = some i :=
    fun k i h => mapGet_of_mem hI.2.1 h
  refine ⟨hI.1, ?_, ?_, ?_⟩
  · intro k i h
    exact (hI.1 k i).mp (hmem k i h)
  · intro k i h
    exact lt_length_of_getElem?_eq_some ((hI.1 k i).mp (hmem k i h))
  · intro k
    constructor
    · rintro ⟨i, h⟩
      exact List.mem_iff_getElem?.mpr ⟨i, (hI.1 k i).mp (hmem k i h)⟩
    · intro h
      rcases List.mem_iff_getElem?.mp h with ⟨i, hi⟩
      exact ⟨i, mem_of_mapGet ((hI.1 k i).mpr hi)⟩

theorem C10_consistency_witness :
    Reachable (Symbol.new "a" State.initial).2 ∧
    ((∀ k i, mapGet (Symbol.new "a" State.initial).2.mapping k = some i ↔
        (Symbol.new "a" State.initial).2.values[i]? = some k) ∧
      (∀ k i, (k, i) ∈ (Symbol.new "a" State.initial).2.mapping →
        (Symbol.new "a" State.initial).2.values[i]? = some k) ∧
      (∀ k i, (k, i) ∈ (Symbol.new "a" State.initial).2.mapping →
        i < (Symbol.new "a" State.initial).2.values.length) ∧
      (∀ k, (∃ i, (k, i) ∈ (Symbol.new "a" State.initial).2.mapping) ↔
        k ∈ (Symbol.new "a" State.initial).2.values)) :=
  ⟨Reachable.step "a" Reachable.init,
    C10_consistency _ (Reachable.step "a" Reachable.init)⟩

end Box
